import Mathlib

/-!
Verification of the tequio process supervisor.

The definitions below are a shallow embedding of the Rust sources:
`src/config.rs` (manifest entries and topological ordering),
`src/pidfile.rs` (the orphan registry), `src/runner.rs` (the per-task
runner) and `src/main.rs` (CLI argument handling).  Pure functions are
translated directly; the stateful/async parts of the runner are
modelled by explicit state passing over an oracle that fixes the
outcome of each race point.
-/

namespace Tequio

/-- A parsed task entry from the INI file (src/config.rs, struct TaskEntry). -/
structure TaskEntry where
  name : String
  command : String
  work_dir : Option String
  depends_on : List String
  ready_check : Option String
deriving DecidableEq

instance : Inhabited TaskEntry := ⟨⟨"", "", none, [], none⟩⟩

/-- Rust's `str::split(sep)` over the character list: splitting an empty
string yields one empty piece, and a trailing separator yields a trailing
empty piece. -/
def splitChars (sep : Char) : List Char → List (List Char)
  | [] => [[]]
  | c :: cs =>
    if c = sep then [] :: splitChars sep cs
    else
      match splitChars sep cs with
      | [] => [[c]]
      | h :: t => (c :: h) :: t

/-- Rust's `str::trim` (leading and trailing whitespace stripped), written
structurally over the character list so that it evaluates by reduction. -/
def trimChars (l : List Char) : List Char :=
  ((l.dropWhile Char.isWhitespace).reverse.dropWhile Char.isWhitespace).reverse

/-- Rust's `str::trim` on strings. -/
def rtrim (s : String) : String := ⟨trimChars s.data⟩

/-- The `depends_on` value handling of `parse_ini` (src/config.rs lines 27-30):
`s.split(',').map(|d| d.trim().to_string()).collect()`. -/
def parse_depends_on (s : String) : List String :=
  (splitChars ',' s.data).map (fun l => ⟨trimChars l⟩)

/-- Error message of the unknown-dependency panic in `topo_sort`
(src/config.rs line 59). -/
def unknownDepMsg (taskName dep : String) : String :=
  "task '" ++ taskName ++ "' depends on unknown task '" ++ dep ++ "'"

/-- Error message of the cycle panic in `topo_sort` (src/config.rs line 80). -/
def cycleMsg : String := "dependency cycle detected among tasks"

/-- The `index_of` map of `topo_sort` (src/config.rs lines 46-50): a HashMap
built by inserting `(name, i)` for each entry in order, so a later entry
with the same name overwrites an earlier one. -/
def index_of (entries : List TaskEntry) (s : String) : Option Nat :=
  entries.enum.foldl (fun acc p => if p.2.name == s then some p.1 else acc) none

/-- The edges of one entry's `depends_on` list (src/config.rs lines 57-63):
each dependency name is looked up; a failed lookup is the unknown-dependency
panic.  An edge `(dep_idx, i)` points from the dependency to the dependent. -/
def depsEdges (lookup : String → Option Nat) (ename : String) (i : Nat) :
    List String → Except String (List (Nat × Nat))
  | [] => .ok []
  | d :: ds =>
    match lookup d with
    | none => .error (unknownDepMsg ename d)
    | some di =>
      match depsEdges lookup ename i ds with
      | .error e => .error e
      | .ok es => .ok ((di, i) :: es)

/-- The edge-collection loop of `topo_sort` (src/config.rs lines 56-64),
iterating over the enumerated entries. -/
def edgesAux (lookup : String → Option Nat) :
    List (Nat × TaskEntry) → Except String (List (Nat × Nat))
  | [] => .ok []
  | (i, e) :: rest =>
    match depsEdges lookup e.name i e.depends_on with
    | .error msg => .error msg
    | .ok es =>
      match edgesAux lookup rest with
      | .error msg => .error msg
      | .ok es2 => .ok (es ++ es2)

/-- All dependency edges of a manifest, or the first unknown-dependency error. -/
def edgesOf (entries : List TaskEntry) : Except String (List (Nat × Nat)) :=
  edgesAux (index_of entries) entries.enum

/-- The adjacency list `adj[d]` of `topo_sort`: dependents of `d`, pushed in
entry order (src/config.rs line 61). -/
def adjOf (E : List (Nat × Nat)) (d : Nat) : List Nat :=
  (E.filter (fun p => p.1 == d)).map (·.2)

/-- The initial in-degree `in_degree[j]` of `topo_sort`: the number of declared
dependencies of entry `j` (src/config.rs line 62), with multiplicity. -/
def indegOf (E : List (Nat × Nat)) (j : Nat) : Nat :=
  E.countP (fun p => p.2 == j)

/-- Ghost quantity for the proofs: the in-degree of `j` counting only edges
whose source has not yet been output.  It coincides with the mutable
`in_degree[j]` of the running algorithm. -/
def remIndeg (E : List (Nat × Nat)) (order : List Nat) (j : Nat) : Nat :=
  E.countP (fun p => p.2 == j && !(decide (p.1 ∈ order)))

/-- One iteration of the inner loop of `topo_sort` (src/config.rs lines 71-76):
`in_degree[next] -= 1; if in_degree[next] == 0 { queue.push_back(next) }`. -/
def relaxOne (indeg : Nat → Nat) (queue : List Nat) (next : Nat) :
    (Nat → Nat) × List Nat :=
  let d := indeg next - 1
  (fun k => if k = next then d else indeg k,
   if d = 0 then queue ++ [next] else queue)

/-- The inner loop of `topo_sort` over all of `adj[idx]`. -/
def relaxAll (indeg : Nat → Nat) (queue : List Nat) (ns : List Nat) :
    (Nat → Nat) × List Nat :=
  ns.foldl (fun st nx => relaxOne st.1 st.2 nx) (indeg, queue)

/-- The main loop of `topo_sort` (src/config.rs lines 69-77): pop the front of
the FIFO queue, output it, relax its out-edges.  `fuel` bounds the number of
iterations; `topo_sort` passes `n + 1`, which the correctness proofs show is
never exhausted before the queue empties. -/
def kahnLoop (adj : Nat → List Nat) :
    Nat → (Nat → Nat) → List Nat → List Nat → List Nat
  | 0, _, _, order => order
  | fuel + 1, indeg, queue, order =>
    match queue with
    | [] => order
    | idx :: rest =>
      let st := relaxAll indeg rest (adj idx)
      kahnLoop adj fuel st.1 st.2 (order ++ [idx])

/-- `topo_sort` (src/config.rs lines 45-85), with the two panics embedded as
`Except.error`.  The queue is seeded with the in-degree-zero indices in
original order (line 66); the final list rebuilds the entries in the order
the loop produced (lines 83-84). -/
def topo_sort (entries : List TaskEntry) : Except String (List TaskEntry) :=
  match edgesOf entries with
  | .error msg => .error msg
  | .ok E =>
    let n := entries.length
    let queue := (List.range n).filter (fun i => indegOf E i == 0)
    let order := kahnLoop (adjOf E) (n + 1) (indegOf E) queue []
    if order.length = n then
      .ok (order.filterMap (fun i => entries.get? i))
    else
      .error cycleMsg

/-- The index order `topo_sort` computes for the resolved edge list `E`:
seed the FIFO queue with the in-degree-zero indices in original order, then
run the main loop. -/
def kahnOrder (entries : List TaskEntry) (E : List (Nat × Nat)) : List Nat :=
  kahnLoop (adjOf E) (entries.length + 1) (indegOf E)
    ((List.range entries.length).filter (fun i => indegOf E i == 0)) []

/-- Modelled from the spec, for comparison with `topo_sort` only: the ordering
the spec describes, whose tie-break is "original file order among
currently-in-degree-zero tasks" — at every step the not-yet-output task with
the smallest original index among those whose dependencies are all output. -/
def specPick (E : List (Nat × Nat)) (n : Nat) (done : List Nat) : Option Nat :=
  (List.range n).find? (fun i => !(decide (i ∈ done)) && remIndeg E done i == 0)

/-- Modelled from the spec: the loop of the spec's tie-break ordering. -/
def specOrderLoop (E : List (Nat × Nat)) (n : Nat) :
    Nat → List Nat → List Nat
  | 0, done => done
  | fuel + 1, done =>
    match specPick E n done with
    | none => done
    | some i => specOrderLoop E n fuel (done ++ [i])

/-- Modelled from the spec: the spec's stable dependency-respecting order. -/
def specStableOrder (entries : List TaskEntry) : Except String (List TaskEntry) :=
  match edgesOf entries with
  | .error msg => .error msg
  | .ok E =>
    let n := entries.length
    let order := specOrderLoop E n (n + 1) []
    if order.length = n then
      .ok (order.filterMap (fun i => entries.get? i))
    else
      .error cycleMsg

/-- The dependency-edge relation of a resolved edge list: `edgeRel E a b`
holds when task `b` declares task `a` as a dependency. -/
def edgeRel (E : List (Nat × Nat)) (a b : Nat) : Prop := (a, b) ∈ E

/-- The dependency graph has a cycle: some task reaches itself through a
nonempty chain of declared dependencies. -/
def HasCycle (E : List (Nat × Nat)) : Prop :=
  ∃ i, Relation.TransGen (edgeRel E) i i

/-- `a` occurs strictly before `b` in the list `l`. -/
def Before (l : List Nat) (a b : Nat) : Prop :=
  ∃ l1 l2, l = l1 ++ l2 ∧ a ∈ l1 ∧ b ∈ l2

/-- Every declared dependency name of every entry resolves in the manifest. -/
def Resolvable (entries : List TaskEntry) : Prop :=
  ∀ e ∈ entries, ∀ d ∈ e.depends_on, (index_of entries d).isSome = true

/-- The loop invariant of `kahnLoop` for the edge list `E` on `n` tasks:
`indeg` is the current in-degree of the not-yet-output part of the graph,
`queue` holds exactly the unprocessed zero-in-degree indices, everything is
in range and duplicate-free, `order` is topologically consistent, and the
indices of in-degree-zero tasks (the seeds) stay in ascending original
order across the output and the queue. -/
structure KInv (E : List (Nat × Nat)) (n : Nat)
    (indeg : Nat → Nat) (queue order : List Nat) : Prop where
  deg : ∀ j, indeg j = remIndeg E order j
  nodup : (order ++ queue).Nodup
  bound : ∀ i ∈ order ++ queue, i < n
  qiff : ∀ i, i < n → (i ∈ queue ↔ (i ∉ order ∧ remIndeg E order i = 0))
  topo : ∀ p ∈ E, p.2 ∈ order → Before order p.1 p.2
  seedSorted : ((order ++ queue).filter (fun i => indegOf E i == 0)).Sorted (· < ·)

/-- The CLI argument handling of `main` (src/main.rs lines 212-214):
`std::env::args().nth(1).unwrap_or_else(|| "tasks.ini".into())`. -/
def config_path (arg1 : Option String) : String :=
  arg1.getD "tasks.ini"

/-! ## Orphan registry (src/pidfile.rs) -/

/-- A file-system or process effect requested by the orphan registry.
`killTree pid` is the process-tree kill collaborator
(`kill_tree::tokio::kill_tree`, src/pidfile.rs line 63); errors of every
effect are ignored by the code, so effects are requests, not results. -/
inductive Effect where
  | killTree (pid : Nat)
  | removeFile
  | writeStore (pids : Finset Nat)
deriving DecidableEq

/-- Rust's `"…".lines()`: split on newline, drop one trailing carriage return
per line, and drop a final empty piece produced by a trailing newline. -/
def rustLines (s : String) : List String :=
  let parts := splitChars '\n' s.data
  let parts := if parts.getLast? = some [] then parts.dropLast else parts
  parts.map (fun l => ⟨if l.getLast? = some '\r' then l.dropLast else l⟩)

/-- Rust's `str::parse::<u32>()`: an optional leading plus sign, then one or
more decimal digits, and the value must fit in 32 bits. -/
def parseU32 (s : String) : Option Nat :=
  let t := match s.data with
    | '+' :: rest => rest
    | cs => cs
  if t ≠ [] ∧ t.all Char.isDigit then
    let v := t.foldl (fun acc c => 10 * acc + (c.toNat - 48)) 0
    if v < 2 ^ 32 then some v else none
  else
    none

/-- `PidFile::load_and_kill_existing` (src/pidfile.rs lines 17-31) as the list
of effects it requests.  `pathExists` models `self.path.exists()`; `readRes`
models `fs::read_to_string` (`none` is the error branch, which returns
without removing the file).  Each line whose trimmed text parses as a `u32`
has its descendant tree killed; afterwards the store file is removed. -/
def load_and_kill_existing (pathExists : Bool) (readRes : Option String) :
    List Effect :=
  if pathExists then
    match readRes with
    | none => []
    | some contents =>
      ((rustLines contents).foldl
        (fun acc line =>
          match parseU32 (rtrim line) with
          | some pid => acc ++ [Effect.killTree pid]
          | none => acc) [])
      ++ [Effect.removeFile]
  else
    []

/-- The in-memory state of `PidFile`: the `HashSet<u32>` of live children. -/
structure PidFileState where
  pids : Finset Nat
deriving DecidableEq

/-- `PidFile::unregister` (src/pidfile.rs lines 38-45): remove the pid from
the set; if the set is now empty remove the store file, else rewrite it in
full. -/
def unregister (st : PidFileState) (pid : Nat) : PidFileState × Effect :=
  let pids := st.pids.erase pid
  (⟨pids⟩, if pids = ∅ then Effect.removeFile else Effect.writeStore pids)

/-- `PidFile::register` (src/pidfile.rs lines 33-36): insert and rewrite. -/
def register (st : PidFileState) (pid : Nat) : PidFileState × Effect :=
  let pids := insert pid st.pids
  (⟨pids⟩, Effect.writeStore pids)

/-! ## Task runner (src/runner.rs) -/

/-- Rust's `str::contains(&str)`: contiguous substring containment. -/
def strContains (s pat : String) : Bool :=
  s.data.tails.any (fun t => pat.data.isPrefixOf t)

/-- How a process is terminated on the shutdown path: `direct` is
`child.kill()` (only the immediate child); `tree` is the process-tree kill
collaborator (the child and all transitive descendants). -/
inductive KillAction where
  | direct
  | tree
deriving DecidableEq

/-- The final mark a runner reports to the UI. -/
inductive Outcome where
  | succeeded
  | failed
deriving DecidableEq

/-- Rust's `std::process::ExitStatus`: `code` is `None` when the process was
terminated by a signal; `success()` holds exactly when the code is zero. -/
structure ExitStatus where
  code : Option Int
deriving DecidableEq

def ExitStatus.success (s : ExitStatus) : Bool := s.code == some 0

/-- Which future wins the final `tokio::select!` of `run_task`
(src/runner.rs lines 131-158): the child's `wait()` (with its result), or
the shutdown signal. -/
inductive WaitRace where
  | exited (res : Except String ExitStatus)
  | shutdown

/-- The oracle fixing the outcome of each suspension/race point of one
`run_task` execution.  `shutdownDuringDepWait` says shutdown wins the
dependency-wait select; `shutdownBeforeSpawn` is the value of
`*shutdown_rx.borrow()` at the re-check; `spawnResult` is the result of
`Command::spawn`; `stdoutLines` are the lines the stdout streamer reads
before the final race; `race` is the final select. -/
structure RunEnv where
  shutdownDuringDepWait : Bool
  shutdownBeforeSpawn : Bool
  spawnResult : Except String Unit
  stdoutLines : List String
  race : WaitRace

/-- What one `run_task` execution did: the latched value of the task's own
readiness signal when the function returns, the final mark, the lines written
to the task pane, and how (if at all) the child was killed. -/
structure RunResult where
  ready : Bool
  state : Outcome
  pane : List String
  kill : Option KillAction
deriving DecidableEq

/-- The stdout streamer of `run_task` (src/runner.rs lines 92-106): for each
line, if there is a ready_check and the trimmed line contains it, send
readiness-true (latched); then write the line to the pane. -/
def stdoutStream (check : Option String) (lines : List String) (ready0 : Bool) :
    Bool × List String :=
  lines.foldl
    (fun st line =>
      let r :=
        match check with
        | some c => if strContains (rtrim line) c then true else st.1
        | none => st.1
      (r, st.2 ++ [line]))
    (ready0, [])

/-- `run_task` (src/runner.rs lines 17-159) over the oracle `env`.
`hasDeps` models `!dep_rxs.is_empty()`.  Readiness is a latched boolean
threaded through the control flow; every `ready_tx.send(true)` sets it. -/
def run_task (hasDeps : Bool) (ready_check : Option String) (env : RunEnv) :
    RunResult :=
  -- dependency wait racing shutdown (lines 31-50)
  if hasDeps && env.shutdownDuringDepWait then
    ⟨true, .failed, [], none⟩
  -- re-check of the shutdown signal before spawning (lines 53-57)
  else if env.shutdownBeforeSpawn then
    ⟨true, .failed, [], none⟩
  else
    match env.spawnResult with
    -- spawn failure (lines 74-79)
    | .error e => ⟨true, .failed, ["failed to spawn command: " ++ e], none⟩
    | .ok _ =>
      -- no ready_check: ready as soon as the child starts (lines 83-85)
      let ready1 := ready_check.isNone
      match env.race with
      | .exited status =>
        -- child completed: drain streamers, then send readiness (lines 132-135)
        let streamed := stdoutStream ready_check env.stdoutLines ready1
        match status with
        | .ok s =>
          if s.success then ⟨true, .succeeded, streamed.2, none⟩
          else
            ⟨true, .failed,
             streamed.2 ++
               ["process exited with code " ++ toString (s.code.getD (-1))],
             none⟩
        | .error e =>
          ⟨true, .failed, streamed.2 ++ ["error waiting for process: " ++ e],
           none⟩
      | .shutdown =>
        -- shutdown won: `child.kill()` on the immediate child only, abort
        -- the streamers, send readiness, mark failed (lines 151-157)
        ⟨true, .failed, [], some KillAction.direct⟩

/-! ## Helper lemmas -/

lemma stdoutStream_foldl_fst (chk : String) (lines : List String) :
    ∀ st : Bool × List String,
      (lines.foldl
        (fun st line =>
          let r :=
            match some chk with
            | some c => if strContains (rtrim line) c then true else st.1
            | none => st.1
          (r, st.2 ++ [line])) st).1
      = (st.1 || lines.any (fun l => strContains (rtrim l) chk)) := by
  induction lines with
  | nil => intro st; simp
  | cons a t ih =>
    intro st
    simp only [List.foldl_cons, List.any_cons, ih]
    by_cases h : strContains (rtrim a) chk
    · simp [h]
    · simp [h]

lemma stdoutStream_fst (chk : String) (lines : List String) (r : Bool) :
    (stdoutStream (some chk) lines r).1
      = (r || lines.any (fun l => strContains (rtrim l) chk)) := by
  unfold stdoutStream
  exact stdoutStream_foldl_fst chk lines (r, [])

lemma take_any_false {α : Type} (p : α → Bool) (l : List α) (i : Nat)
    (h : ∀ j (hj : j < i) (hl : j < l.length), p (l.get ⟨j, hl⟩) = false) :
    (l.take i).any p = false := by
  induction l generalizing i with
  | nil => simp
  | cons a t ih =>
    cases i with
    | zero => simp
    | succ k =>
      simp only [List.take_succ_cons, List.any_cons]
      have h0 : p a = false := h 0 (Nat.succ_pos k) (Nat.succ_pos t.length)
      rw [h0]
      simp only [Bool.false_or]
      exact ih k (fun j hj hl => h (j + 1) (Nat.succ_lt_succ hj) (Nat.succ_lt_succ hl))

lemma foldl_killTree (ls : List String) (acc : List Effect) :
    ls.foldl
      (fun acc line =>
        match parseU32 (rtrim line) with
        | some pid => acc ++ [Effect.killTree pid]
        | none => acc) acc
    = acc ++ ls.filterMap (fun l => (parseU32 (rtrim l)).map Effect.killTree) := by
  induction ls generalizing acc with
  | nil => simp
  | cons a t ih =>
    simp only [List.foldl_cons, List.filterMap_cons]
    cases h : parseU32 (rtrim a) with
    | none => simp [h, ih]
    | some pid => simp [h, ih]

/-! ## Claims about the runner -/

/-- C2: on every control path out of `run_task` — shutdown during the
dependency wait, shutdown observed before spawn, spawn failure, child exit
with any status, wait error, shutdown during the run — the task's own
readiness signal has been set to true before the function returns. -/
theorem run_task_always_ready (hasDeps : Bool) (chk : Option String)
    (env : RunEnv) : (run_task hasDeps chk env).ready = true := by
  obtain ⟨sd, sb, sp, lines, race⟩ := env
  unfold run_task
  dsimp only
  split
  · rfl
  · split
    · rfl
    · cases sp with
      | error e => rfl
      | ok u =>
        cases race with
        | exited status =>
          cases status with
          | ok s =>
            dsimp only
            split <;> rfl
          | error e => rfl
        | shutdown => rfl

/-- C3: with a `ready_check` configured, the runner's stdout scan leaves the
readiness signal false before the first stdout line whose whitespace-trimmed
text contains the configured substring, and sets it true once that line is
processed (substring containment, not full-line equality). -/
theorem ready_check_first_match (chk : String) (lines : List String) (i : Nat)
    (h1 : i < lines.length)
    (h2 : strContains (rtrim (lines.get ⟨i, h1⟩)) chk = true)
    (h3 : ∀ j (hj : j < i), strContains (rtrim (lines.get ⟨j, Nat.lt_trans hj h1⟩)) chk = false) :
    (stdoutStream (some chk) (lines.take i) false).1 = false ∧
    (stdoutStream (some chk) (lines.take (i + 1)) false).1 = true := by
  constructor
  · rw [stdoutStream_fst]
    have : (lines.take i).any (fun l => strContains (rtrim l) chk) = false := by
      apply take_any_false
      intro j hj hl
      exact h3 j hj
    simp [this]
  · rw [stdoutStream_fst]
    have hmem : lines.get ⟨i, h1⟩ ∈ lines.take (i + 1) := by
      rw [List.take_succ]
      apply List.mem_append_right
      simp [List.get?_eq_get h1]
    have : (lines.take (i + 1)).any (fun l => strContains (rtrim l) chk) = true := by
      rw [List.any_eq_true]
      exact ⟨lines.get ⟨i, h1⟩, hmem, h2⟩
    simp [this]

/-- Witness for C3 at a concrete input: the second line contains `READY`
without being equal to it, and the first line does not. -/
theorem ready_check_first_match_witness :
    (stdoutStream (some "READY") (["starting up", "a READY b", "READY"].take 1) false).1 = false ∧
    (stdoutStream (some "READY") (["starting up", "a READY b", "READY"].take 2) false).1 = true :=
  ready_check_first_match "READY" ["starting up", "a READY b", "READY"] 1
    (by decide) (by decide) (by decide)

/-- C8: when the child's wait completes, the task is marked SUCCEEDED iff
the exit status code is zero; otherwise it is marked FAILED and the pane's
last line is `process exited with code N` (N the code, `-1` when
unavailable); when the wait itself errors the task is marked FAILED with the
error diagnostic as the pane's last line. -/
theorem exit_status_marks (hasDeps : Bool) (chk : Option String) (env : RunEnv)
    (hdep : (hasDeps && env.shutdownDuringDepWait) = false)
    (hsb : env.shutdownBeforeSpawn = false)
    (hsp : env.spawnResult = .ok ()) :
    (∀ s : ExitStatus, env.race = .exited (.ok s) →
      (((run_task hasDeps chk env).state = .succeeded) ↔ s.code = some 0) ∧
      (s.code ≠ some 0 →
        (run_task hasDeps chk env).state = .failed ∧
        (run_task hasDeps chk env).pane.getLast? =
          some ("process exited with code " ++ toString (s.code.getD (-1))))) ∧
    (∀ e : String, env.race = .exited (.error e) →
      (run_task hasDeps chk env).state = .failed ∧
      (run_task hasDeps chk env).pane.getLast? =
        some ("error waiting for process: " ++ e)) := by
  obtain ⟨sd, sb, sp, lines, race⟩ := env
  dsimp only at hdep hsb hsp ⊢
  subst hsb hsp
  constructor
  · intro s hrace
    subst hrace
    unfold run_task
    simp only [hdep, Bool.false_eq_true, if_false, if_neg (by exact fun h => h)]
    by_cases hs : s.success
    · have hcode : s.code = some 0 := by
        have := hs
        unfold ExitStatus.success at this
        simpa using this
      simp [hs, hcode]
    · have hcode : ¬ s.code = some 0 := by
        intro hc
        apply hs
        unfold ExitStatus.success
        simp [hc]
      simp [hs, hcode]
  · intro e hrace
    subst hrace
    unfold run_task
    simp [hdep]

/-- Witness for C8 at concrete inputs: exit code 3 is reported and marked
FAILED. -/
theorem exit_status_marks_witness :
    (run_task false none ⟨false, false, .ok (), ["x"], .exited (.ok ⟨some 3⟩)⟩).state
        = .failed ∧
    (run_task false none ⟨false, false, .ok (), ["x"], .exited (.ok ⟨some 3⟩)⟩).pane.getLast?
        = some ("process exited with code " ++ toString ((some (3:Int)).getD (-1))) :=
  ((exit_status_marks false none ⟨false, false, .ok (), ["x"], .exited (.ok ⟨some 3⟩)⟩
      rfl rfl rfl).1 ⟨some 3⟩ rfl).2 (by decide)

/-- C1: on the shutdown path the code calls `child.kill()`, which terminates
only the immediate child process, not the descendant tree that the spec
requires (`KillAction.tree`, as the orphan registry uses for recovery). -/
theorem shutdown_kills_direct_child_only (hasDeps : Bool) (chk : Option String)
    (env : RunEnv)
    (hdep : (hasDeps && env.shutdownDuringDepWait) = false)
    (hsb : env.shutdownBeforeSpawn = false)
    (hsp : env.spawnResult = .ok ())
    (hrace : env.race = .shutdown) :
    (run_task hasDeps chk env).kill = some KillAction.direct ∧
    (run_task hasDeps chk env).kill ≠ some KillAction.tree := by
  obtain ⟨sd, sb, sp, lines, race⟩ := env
  dsimp only at hdep hsb hsp hrace
  subst hsb hsp hrace
  unfold run_task
  simp [hdep]

/-- Witness for C1: a concrete task running when shutdown arrives: only the
direct child is killed. -/
theorem shutdown_kills_direct_child_only_witness :
    (run_task false none ⟨false, false, .ok (), [], .shutdown⟩).kill
        = some KillAction.direct ∧
    (run_task false none ⟨false, false, .ok (), [], .shutdown⟩).kill
        ≠ some KillAction.tree :=
  shutdown_kills_direct_child_only false none ⟨false, false, .ok (), [], .shutdown⟩
    rfl rfl rfl rfl

/-! ## Claims about the CLI default -/

/-- C4 counterexample: with no positional argument the manifest path is not
`tequio.ini`. -/
theorem config_path_default_not_tequio : config_path none ≠ "tequio.ini" := by
  decide

/-- C4 (amended): with no positional argument the manifest defaults to
`tasks.ini` in the current working directory. -/
theorem config_path_default : config_path none = "tasks.ini" := rfl

/-! ## Claims about the orphan registry -/

/-- C7: when the store file exists and is readable, `load_and_kill_existing`
requests a descendant-tree kill for exactly the lines whose trimmed text
parses as a decimal identifier (blank or unparseable lines are skipped,
kill errors are ignored since effects are best-effort requests), and then
removes the store file. -/
theorem recover_kills_each_pid_then_removes (contents : String) :
    load_and_kill_existing true (some contents) =
      ((rustLines contents).filterMap
        (fun l => (parseU32 (rtrim l)).map Effect.killTree))
      ++ [Effect.removeFile] := by
  unfold load_and_kill_existing
  simp only [if_true]
  rw [foldl_killTree]
  simp

/-- C10: `unregister p` with `p` not in the in-memory set leaves the set
unchanged, and when the set is empty it still removes the persistent store
file even though nothing was removed. -/
theorem unregister_not_mem_frame (st : PidFileState) (pid : Nat)
    (h : pid ∉ st.pids) :
    (unregister st pid).1.pids = st.pids ∧
    (st.pids = ∅ → (unregister st pid).2 = Effect.removeFile) := by
  unfold unregister
  refine ⟨Finset.erase_eq_of_not_mem h, ?_⟩
  intro hempty
  simp [hempty]

/-- Witness for C10: unregistering from an empty registry removes the file. -/
theorem unregister_not_mem_frame_witness :
    (unregister ⟨∅⟩ 7).1.pids = (∅ : Finset Nat) ∧
    ((∅ : Finset Nat) = ∅ → (unregister ⟨∅⟩ 7).2 = Effect.removeFile) :=
  unregister_not_mem_frame ⟨∅⟩ 7 (by decide)

/-! ## Counting lemmas for the Kahn invariant -/

lemma countP_split {α : Type} (l : List α) (p q : α → Bool) :
    l.countP p
      = l.countP (fun a => p a && q a) + l.countP (fun a => p a && !q a) := by
  induction l with
  | nil => simp
  | cons a t ih =>
    by_cases hp : p a <;> by_cases hq : q a <;>
      simp [List.countP_cons, hp, hq, ih] <;> omega

lemma count_adjOf (E : List (Nat × Nat)) (idx j : Nat) :
    (adjOf E idx).count j = E.countP (fun p => p.1 == idx && p.2 == j) := by
  unfold adjOf
  rw [List.count_eq_countP, List.countP_map, List.countP_filter]
  apply List.countP_congr
  intro p _
  simp only [Function.comp]
  by_cases h1 : p.1 = idx <;> by_cases h2 : p.2 = j <;> simp [h1, h2]

lemma mem_adjOf (E : List (Nat × Nat)) (idx j : Nat) :
    j ∈ adjOf E idx ↔ (idx, j) ∈ E := by
  unfold adjOf
  simp only [List.mem_map, List.mem_filter]
  constructor
  · rintro ⟨p, ⟨hp, he⟩, rfl⟩
    have : p.1 = idx := by simpa using he
    rwa [← this]
  · intro h
    exact ⟨(idx, j), ⟨h, by simp⟩, rfl⟩

lemma remIndeg_nil (E : List (Nat × Nat)) (j : Nat) :
    remIndeg E [] j = indegOf E j := by
  unfold remIndeg indegOf
  apply List.countP_congr
  intro p _
  simp

lemma remIndeg_step (E : List (Nat × Nat)) (order : List Nat) (idx j : Nat)
    (h : idx ∉ order) :
    remIndeg E order j
      = E.countP (fun p => p.1 == idx && p.2 == j)
        + remIndeg E (order ++ [idx]) j := by
  unfold remIndeg
  rw [countP_split E _ (fun p => p.1 == idx)]
  congr 1
  · apply List.countP_congr
    intro p _
    by_cases h1 : p.1 = idx <;> by_cases h2 : p.2 = j <;>
      simp [h1, h2, h]
  · apply List.countP_congr
    intro p _
    by_cases h1 : p.1 = idx <;> by_cases h2 : p.2 = j <;>
      simp [h1, h2, List.mem_append]

lemma count_adj_le_remIndeg (E : List (Nat × Nat)) (order : List Nat)
    (idx j : Nat) (h : idx ∉ order) :
    E.countP (fun p => p.1 == idx && p.2 == j) ≤ remIndeg E order j := by
  unfold remIndeg
  apply List.countP_mono_left
  intro p _ hp
  have h1 : p.1 = idx := by
    have := hp
    simp only [Bool.and_eq_true, beq_iff_eq] at this
    exact this.1
  have h2 : p.2 = j := by
    have := hp
    simp only [Bool.and_eq_true, beq_iff_eq] at this
    exact this.2
  simp [h1, h2, h]

lemma remIndeg_le_of_append (E : List (Nat × Nat)) (order ext : List Nat)
    (j : Nat) :
    remIndeg E (order ++ ext) j ≤ remIndeg E order j := by
  unfold remIndeg
  apply List.countP_mono_left
  intro p _ hp
  simp only [Bool.and_eq_true, beq_iff_eq, Bool.not_eq_true', decide_eq_false_iff_not,
    List.mem_append] at hp ⊢
  exact ⟨hp.1, fun hmem => hp.2 (Or.inl hmem)⟩

/-! ## The relax loop -/

lemma relaxAll_spec (ns : List Nat) (indeg : Nat → Nat) (queue : List Nat)
    (h : ∀ j, ns.count j ≤ indeg j) :
    (∀ j, (relaxAll indeg queue ns).1 j = indeg j - ns.count j) ∧
    ∃ newly, (relaxAll indeg queue ns).2 = queue ++ newly ∧ newly.Nodup ∧
      (∀ j, j ∈ newly ↔ (j ∈ ns ∧ indeg j = ns.count j)) := by
  induction ns generalizing indeg queue with
  | nil =>
    refine ⟨fun j => by simp [relaxAll], [], by simp [relaxAll], by simp, by simp⟩
  | cons nx tl ih =>
    have hnx : tl.count nx + 1 ≤ indeg nx := by
      have h0 := h nx
      simp [List.count_cons] at h0
      omega
    have hfold : relaxAll indeg queue (nx :: tl)
        = relaxAll (fun k => if k = nx then indeg nx - 1 else indeg k)
            (if indeg nx - 1 = 0 then queue ++ [nx] else queue) tl := by
      simp [relaxAll, relaxOne, List.foldl_cons]
    have h' : ∀ j, tl.count j
        ≤ (fun k => if k = nx then indeg nx - 1 else indeg k) j := by
      intro j
      have h0 := h j
      by_cases hj : j = nx
      · subst hj
        show tl.count j ≤ if j = j then indeg j - 1 else indeg j
        rw [if_pos rfl]
        simp [List.count_cons] at h0
        omega
      · have hb : (nx == j) = false := beq_eq_false_iff_ne.mpr (Ne.symm hj)
        show tl.count j ≤ if j = nx then indeg nx - 1 else indeg j
        rw [if_neg hj]
        simp [List.count_cons, hb] at h0
        omega
    obtain ⟨ih1, newly', hq', hnd', hchar'⟩ := ih _ _ h'
    rw [hfold]
    refine ⟨?_, ?_⟩
    · intro j
      rw [ih1 j]
      by_cases hj : j = nx
      · subst hj
        show (if j = j then indeg j - 1 else indeg j) - tl.count j
            = indeg j - (j :: tl).count j
        rw [if_pos rfl]
        simp [List.count_cons]
        omega
      · have hb : (nx == j) = false := beq_eq_false_iff_ne.mpr (Ne.symm hj)
        show (if j = nx then indeg nx - 1 else indeg j) - tl.count j
            = indeg j - (nx :: tl).count j
        rw [if_neg hj]
        simp [List.count_cons, hb]
    · by_cases hd : indeg nx - 1 = 0
      · -- nx reached zero: pushed now; it cannot also be pushed in the tail
        have hone : indeg nx = 1 := by omega
        have hcnt0 : tl.count nx = 0 := by omega
        have hnxtl : nx ∉ tl := by
          intro hmem
          have := List.count_pos_iff.mpr hmem
          omega
        have hnxnew : nx ∉ newly' := by
          intro hmem
          exact hnxtl ((hchar' nx).mp hmem).1
        refine ⟨nx :: newly', ?_, List.nodup_cons.mpr ⟨hnxnew, hnd'⟩, ?_⟩
        · rw [hq', if_pos hd, List.append_assoc]
          rfl
        · intro j
          by_cases hj : j = nx
          · subst hj
            apply iff_of_true (List.mem_cons_self _ _)
            refine ⟨List.mem_cons_self _ _, ?_⟩
            simp [List.count_cons, hcnt0, hone]
          · have hb : (nx == j) = false := beq_eq_false_iff_ne.mpr (Ne.symm hj)
            rw [List.mem_cons, List.mem_cons, hchar' j]
            simp only [List.count_cons, hb, if_neg hj, cond_false, Bool.false_eq_true,
              if_false, Nat.add_zero]
            constructor
            · rintro (hc | ⟨hm, he⟩)
              · exact absurd hc hj
              · exact ⟨Or.inr hm, he⟩
            · rintro ⟨hc | hm, he⟩
              · exact absurd hc hj
              · exact Or.inr ⟨hm, he⟩
      · -- nx still positive after the decrement: nothing pushed at this step
        refine ⟨newly', by rw [hq', if_neg hd], hnd', ?_⟩
        intro j
        by_cases hj : j = nx
        · subst hj
          rw [hchar' j]
          rw [if_pos rfl]
          have hc1 : (j :: tl).count j = tl.count j + 1 := by
            simp [List.count_cons]
          rw [hc1]
          constructor
          · rintro ⟨hm, he⟩
            exact ⟨List.mem_cons_self _ _, by omega⟩
          · rintro ⟨_, he⟩
            have hm : j ∈ tl := by
              by_contra hnm
              have h00 : tl.count j = 0 := List.count_eq_zero.mpr hnm
              omega
            exact ⟨hm, by omega⟩
        · have hb : (nx == j) = false := beq_eq_false_iff_ne.mpr (Ne.symm hj)
          rw [hchar' j, List.mem_cons]
          simp only [List.count_cons, hb, if_neg hj, Bool.false_eq_true, if_false,
            Nat.add_zero]
          constructor
          · rintro ⟨hm, he⟩
            exact ⟨Or.inr hm, he⟩
          · rintro ⟨hc | hm, he⟩
            · exact absurd hc hj
            · exact ⟨hm, he⟩

/-! ## Before and position helpers -/

lemma Before.mem_left {l : List Nat} {a b : Nat} (h : Before l a b) : a ∈ l := by
  obtain ⟨l1, l2, rfl, ha, _⟩ := h
  exact List.mem_append_left _ ha

lemma Before.mem_right {l : List Nat} {a b : Nat} (h : Before l a b) : b ∈ l := by
  obtain ⟨l1, l2, rfl, _, hb⟩ := h
  exact List.mem_append_right _ hb

lemma Before.append_right {l : List Nat} {a b : Nat} (h : Before l a b)
    (l3 : List Nat) : Before (l ++ l3) a b := by
  obtain ⟨l1, l2, rfl, ha, hb⟩ := h
  exact ⟨l1, l2 ++ l3, by rw [List.append_assoc], ha, List.mem_append_left _ hb⟩

lemma before_snoc {order : List Nat} {a idx : Nat} (h : a ∈ order) :
    Before (order ++ [idx]) a idx :=
  ⟨order, [idx], rfl, h, List.mem_singleton.mpr rfl⟩

lemma indexOf_append_left {α : Type} [DecidableEq α] (x : α) (xs ys : List α)
    (h : x ∈ xs) : (xs ++ ys).indexOf x = xs.indexOf x := by
  induction xs with
  | nil => cases h
  | cons a t ih =>
    by_cases hax : a = x
    · subst hax
      simp [List.indexOf_cons_self]
    · have hb : (a == x) = false := beq_eq_false_iff_ne.mpr hax
      have hx : x ∈ t := by
        rcases List.mem_cons.mp h with h1 | h1
        · exact absurd h1.symm hax
        · exact h1
      rw [List.cons_append, List.indexOf_cons, List.indexOf_cons, hb]
      simp [ih hx]

lemma indexOf_append_right {α : Type} [DecidableEq α] (x : α) (xs ys : List α)
    (h : x ∉ xs) : (xs ++ ys).indexOf x = xs.length + ys.indexOf x := by
  induction xs with
  | nil => simp
  | cons a t ih =>
    have hax : ¬ a = x := fun e => h (e ▸ List.mem_cons_self a t)
    have hb : (a == x) = false := beq_eq_false_iff_ne.mpr hax
    have ht : x ∉ t := fun hm => h (List.mem_cons_of_mem _ hm)
    rw [List.cons_append, List.indexOf_cons, hb]
    simp [ih ht]
    omega

lemma Before.indexOf_map_lt {l : List Nat} {a b : Nat} (h : Before l a b)
    (hnd : l.Nodup) {α : Type} [DecidableEq α] (f : Nat → α)
    (hinj : ∀ x ∈ l, ∀ y ∈ l, f x = f y → x = y) :
    (l.map f).indexOf (f a) < (l.map f).indexOf (f b) := by
  obtain ⟨l1, l2, rfl, ha, hb⟩ := h
  have hnd' := List.nodup_append.mp hnd
  have hfa : f a ∈ l1.map f := List.mem_map_of_mem f ha
  have hfb : f b ∉ l1.map f := by
    intro hmem
    obtain ⟨x, hx, hfx⟩ := List.mem_map.mp hmem
    have hxb : x = b :=
      hinj x (List.mem_append_left _ hx) b (List.mem_append_right _ hb) hfx
    subst hxb
    exact hnd'.2.2 hx hb
  rw [List.map_append, indexOf_append_left _ _ _ hfa, indexOf_append_right _ _ _ hfb]
  have h1 : (l1.map f).indexOf (f a) < (l1.map f).length :=
    List.indexOf_lt_length.mpr hfa
  omega

lemma Before.indexOf_lt {l : List Nat} {a b : Nat} (h : Before l a b)
    (hnd : l.Nodup) : l.indexOf a < l.indexOf b := by
  have := h.indexOf_map_lt hnd (fun x => x) (fun x _ y _ e => e)
  simpa [List.map_id] using this

lemma sorted_filter_before {l : List Nat} {p : Nat → Bool} {a b : Nat}
    (hs : (l.filter p).Sorted (· < ·)) (ha : a ∈ l) (hb : b ∈ l)
    (hpa : p a = true) (hpb : p b = true) (hab : a < b) : Before l a b := by
  induction l with
  | nil => cases ha
  | cons x t ih =>
    by_cases hxa : x = a
    · subst hxa
      have hbt : b ∈ t := by
        rcases List.mem_cons.mp hb with h1 | h1
        · omega
        · exact h1
      exact ⟨[x], t, rfl, List.mem_singleton.mpr rfl, hbt⟩
    · by_cases hxb : x = b
      · subst hxb
        exfalso
        have hat : a ∈ t := by
          rcases List.mem_cons.mp ha with h1 | h1
          · exact absurd h1.symm hxa
          · exact h1
        have hfa : a ∈ t.filter p := List.mem_filter.mpr ⟨hat, hpa⟩
        have hcons : (x :: t).filter p = x :: t.filter p := by
          rw [List.filter_cons_of_pos hpb]
        rw [hcons] at hs
        have := (List.sorted_cons.mp hs).1 a hfa
        omega
      · have hat : a ∈ t := by
          rcases List.mem_cons.mp ha with h1 | h1
          · exact absurd h1.symm hxa
          · exact h1
        have hbt : b ∈ t := by
          rcases List.mem_cons.mp hb with h1 | h1
          · exact absurd h1.symm hxb
          · exact h1
        have hst : (t.filter p).Sorted (· < ·) := by
          by_cases hpx : p x
          · rw [List.filter_cons_of_pos hpx] at hs
            exact (List.sorted_cons.mp hs).2
          · rwa [List.filter_cons_of_neg (by simpa using hpx)] at hs
        obtain ⟨l1, l2, heq, h1, h2⟩ := ih hst hat hbt
        exact ⟨x :: l1, l2, by rw [heq, List.cons_append], List.mem_cons_of_mem _ h1, h2⟩

/-! ## The Kahn step preserves the invariant -/

lemma kahnStep_inv (E : List (Nat × Nat)) (n : Nat)
    (hE : ∀ p ∈ E, p.1 < n ∧ p.2 < n)
    (indeg : Nat → Nat) (idx : Nat) (rest order : List Nat)
    (hinv : KInv E n indeg (idx :: rest) order) :
    KInv E n (relaxAll indeg rest (adjOf E idx)).1
      (relaxAll indeg rest (adjOf E idx)).2 (order ++ [idx]) := by
  obtain ⟨hn1, hn2, hdisj⟩ := List.nodup_append.mp hinv.nodup
  have hidxq : idx ∈ idx :: rest := List.mem_cons_self _ _
  have hidxn : idx < n := hinv.bound idx (List.mem_append_right _ hidxq)
  have hidxnot : idx ∉ order := fun hmem => hdisj hmem hidxq
  have hq0 : remIndeg E order idx = 0 := ((hinv.qiff idx hidxn).mp hidxq).2
  have hidxnrest : idx ∉ rest := (List.nodup_cons.mp hn2).1
  have hcount : ∀ j, (adjOf E idx).count j ≤ indeg j := by
    intro j
    rw [count_adjOf, hinv.deg j]
    exact count_adj_le_remIndeg E order idx j hidxnot
  obtain ⟨hfst, newly, hsnd, hndnew, hchar⟩ :=
    relaxAll_spec (adjOf E idx) indeg rest hcount
  have hstep : ∀ j, remIndeg E order j
      = E.countP (fun p => p.1 == idx && p.2 == j)
        + remIndeg E (order ++ [idx]) j :=
    fun j => remIndeg_step E order idx j hidxnot
  have hnew_edge : ∀ j ∈ newly, (idx, j) ∈ E := by
    intro j hj
    exact (mem_adjOf E idx j).mp ((hchar j).mp hj).1
  have hnew_rem0 : ∀ j ∈ newly, remIndeg E (order ++ [idx]) j = 0 := by
    intro j hj
    have h1 : indeg j = (adjOf E idx).count j := ((hchar j).mp hj).2
    rw [hinv.deg j, count_adjOf] at h1
    have h2 := hstep j
    omega
  have hnew_notorder : ∀ j ∈ newly, j ∉ order := by
    intro j hj hmem
    have hb := hinv.topo (idx, j) (hnew_edge j hj) hmem
    exact hidxnot hb.mem_left
  have hnew_neidx : ∀ j ∈ newly, j ≠ idx := by
    intro j hj he
    have hedge : (idx, j) ∈ E := hnew_edge j hj
    rw [he] at hedge
    have hpos : 0 < remIndeg E order idx := by
      unfold remIndeg
      rw [List.countP_pos]
      exact ⟨(idx, idx), hedge, by simp [hidxnot]⟩
    omega
  have hnew_notrest : ∀ j ∈ newly, j ∉ rest := by
    intro j hj hmem
    have hjq : j ∈ idx :: rest := List.mem_cons_of_mem _ hmem
    have hjn : j < n := hinv.bound j (List.mem_append_right _ hjq)
    have h0 : remIndeg E order j = 0 := ((hinv.qiff j hjn).mp hjq).2
    have hpos : 0 < remIndeg E order j := by
      unfold remIndeg
      rw [List.countP_pos]
      exact ⟨(idx, j), hnew_edge j hj, by simp [hidxnot]⟩
    omega
  have hnew_lt : ∀ j ∈ newly, j < n := by
    intro j hj
    exact (hE (idx, j) (hnew_edge j hj)).2
  refine KInv.mk ?_ ?_ ?_ ?_ ?_ ?_
  · -- deg
    intro j
    rw [hfst j, hinv.deg j, count_adjOf]
    have h2 := hstep j
    omega
  · -- nodup
    rw [hsnd]
    have heq : (order ++ [idx]) ++ (rest ++ newly)
        = (order ++ idx :: rest) ++ newly := by simp
    rw [heq]
    apply List.nodup_append.mpr
    refine ⟨hinv.nodup, hndnew, ?_⟩
    intro a ha hanew
    rcases List.mem_append.mp ha with ha | ha
    · exact hnew_notorder a hanew ha
    · rcases List.mem_cons.mp ha with ha | ha
      · exact hnew_neidx a hanew ha
      · exact hnew_notrest a hanew ha
  · -- bound
    intro i hi
    rw [hsnd] at hi
    rcases List.mem_append.mp hi with hi | hi
    · rcases List.mem_append.mp hi with hi | hi
      · exact hinv.bound i (List.mem_append_left _ hi)
      · rw [List.mem_singleton.mp hi]
        exact hidxn
    · rcases List.mem_append.mp hi with hi | hi
      · exact hinv.bound i (List.mem_append_right _ (List.mem_cons_of_mem _ hi))
      · exact hnew_lt i hi
  · -- qiff
    intro i hin
    constructor
    · intro hi
      rw [hsnd] at hi
      rcases List.mem_append.mp hi with hi | hi
      · have hiq : i ∈ idx :: rest := List.mem_cons_of_mem _ hi
        have h0 := (hinv.qiff i hin).mp hiq
        have hne : i ≠ idx := fun e => hidxnrest (e ▸ hi)
        refine ⟨?_, ?_⟩
        · intro hmem
          rcases List.mem_append.mp hmem with hm | hm
          · exact h0.1 hm
          · exact hne (List.mem_singleton.mp hm)
        · have hle := remIndeg_le_of_append E order [idx] i
          have h02 := h0.2
          omega
      · refine ⟨?_, hnew_rem0 i hi⟩
        intro hmem
        rcases List.mem_append.mp hmem with hm | hm
        · exact hnew_notorder i hi hm
        · exact hnew_neidx i hi (List.mem_singleton.mp hm)
    · rintro ⟨hnotin, h0⟩
      have hne : i ≠ idx := by
        intro e
        exact hnotin (e ▸ List.mem_append_right _ (List.mem_singleton.mpr rfl))
      have hno : i ∉ order := fun hm => hnotin (List.mem_append_left _ hm)
      rw [hsnd]
      by_cases hrem : remIndeg E order i = 0
      · have hmem : i ∈ idx :: rest := (hinv.qiff i hin).mpr ⟨hno, hrem⟩
        rcases List.mem_cons.mp hmem with h1 | h1
        · exact absurd h1 hne
        · exact List.mem_append_left _ h1
      · have hstepi := hstep i
        have hcntpos : 0 < E.countP (fun p => p.1 == idx && p.2 == i) := by
          omega
        have hedge : (idx, i) ∈ E := by
          rcases List.countP_pos.mp hcntpos with ⟨p, hp, hpp⟩
          simp only [Bool.and_eq_true, beq_iff_eq] at hpp
          have hpe : p = (idx, i) := by
            obtain ⟨p1, p2⟩ := p
            simp only at hpp
            rw [hpp.1, hpp.2]
          rwa [hpe] at hp
        have hcnt_eq : indeg i = (adjOf E idx).count i := by
          rw [hinv.deg i, count_adjOf]
          omega
        have : i ∈ newly :=
          (hchar i).mpr ⟨(mem_adjOf E idx i).mpr hedge, hcnt_eq⟩
        exact List.mem_append_right _ this
  · -- topo
    intro p hp hmem
    rcases List.mem_append.mp hmem with hm | hm
    · exact (hinv.topo p hp hm).append_right [idx]
    · have hm' : p.2 = idx := List.mem_singleton.mp hm
      have h1 : p.1 ∈ order := by
        by_contra hno
        have hpos : 0 < remIndeg E order idx := by
          unfold remIndeg
          rw [List.countP_pos]
          exact ⟨p, hp, by simp [hm', hno]⟩
        omega
      rw [hm']
      exact before_snoc h1
  · -- seedSorted
    rw [hsnd]
    have heq : (order ++ [idx]) ++ (rest ++ newly)
        = (order ++ idx :: rest) ++ newly := by simp
    rw [heq, List.filter_append]
    have hnil : newly.filter (fun i => indegOf E i == 0) = [] := by
      rw [List.filter_eq_nil]
      intro a ha
      have hpos : 0 < indegOf E a := by
        unfold indegOf
        rw [List.countP_pos]
        exact ⟨(idx, a), hnew_edge a ha, by simp⟩
      simp
      omega
    rw [hnil, List.append_nil]
    exact hinv.seedSorted

/-! ## The loop invariant holds initially and propagates to the result -/

lemma kahnInit (E : List (Nat × Nat)) (n : Nat) :
    KInv E n (indegOf E)
      ((List.range n).filter (fun i => indegOf E i == 0)) [] := by
  refine KInv.mk ?_ ?_ ?_ ?_ ?_ ?_
  · intro j
    exact (remIndeg_nil E j).symm
  · simpa using (List.nodup_range n).filter _
  · intro i hi
    simp only [List.nil_append, List.mem_filter, List.mem_range] at hi
    exact hi.1
  · intro i hin
    constructor
    · intro hmem
      rw [List.mem_filter] at hmem
      refine ⟨by simp, ?_⟩
      rw [remIndeg_nil]
      simpa using hmem.2
    · rintro ⟨_, h0⟩
      rw [List.mem_filter]
      refine ⟨List.mem_range.mpr hin, ?_⟩
      rw [remIndeg_nil] at h0
      simpa using h0
  · intro p _ hm
    simp at hm
  · simp only [List.nil_append, List.filter_filter]
    have h1 : ((List.range n).Pairwise (· < ·)) := List.pairwise_lt_range n
    exact h1.filter _

lemma nodup_lt_length_le (l : List Nat) (n : Nat) (hnd : l.Nodup)
    (hb : ∀ i ∈ l, i < n) : l.length ≤ n := by
  have h1 : l.toFinset ⊆ Finset.range n := by
    intro a ha
    rw [List.mem_toFinset] at ha
    exact Finset.mem_range.mpr (hb a ha)
  have h2 := Finset.card_le_card h1
  rw [List.toFinset_card_of_nodup hnd] at h2
  simpa using h2

lemma kahnLoop_props (E : List (Nat × Nat)) (n : Nat)
    (hE : ∀ p ∈ E, p.1 < n ∧ p.2 < n) :
    ∀ (fuel : Nat) (indeg : Nat → Nat) (queue order : List Nat),
      KInv E n indeg queue order → n < order.length + fuel →
      (kahnLoop (adjOf E) fuel indeg queue order).Nodup ∧
      (∀ i ∈ kahnLoop (adjOf E) fuel indeg queue order, i < n) ∧
      (∀ p ∈ E, p.2 ∈ kahnLoop (adjOf E) fuel indeg queue order →
        Before (kahnLoop (adjOf E) fuel indeg queue order) p.1 p.2) ∧
      ((kahnLoop (adjOf E) fuel indeg queue order).filter
        (fun i => indegOf E i == 0)).Sorted (· < ·) ∧
      (∀ i, i < n → i ∉ kahnLoop (adjOf E) fuel indeg queue order →
        remIndeg E (kahnLoop (adjOf E) fuel indeg queue order) i ≠ 0)
  | 0, indeg, queue, order => by
    intro hinv hfuel
    exfalso
    have h1 : order.length ≤ n :=
      nodup_lt_length_le order n (List.nodup_append.mp hinv.nodup).1
        (fun i hi => hinv.bound i (List.mem_append_left _ hi))
    omega
  | fuel + 1, indeg, queue, order => by
    intro hinv hfuel
    cases queue with
    | nil =>
      have hk : kahnLoop (adjOf E) (fuel + 1) indeg [] order = order := rfl
      rw [hk]
      refine ⟨?_, ?_, ?_, ?_, ?_⟩
      · simpa using hinv.nodup
      · intro i hi
        exact hinv.bound i (List.mem_append_left _ hi)
      · intro p hp hm
        exact hinv.topo p hp hm
      · simpa using hinv.seedSorted
      · intro i hin hnot h0
        have hmem := (hinv.qiff i hin).mpr ⟨hnot, h0⟩
        simp at hmem
    | cons idx rest =>
      have hk : kahnLoop (adjOf E) (fuel + 1) indeg (idx :: rest) order
          = kahnLoop (adjOf E) fuel (relaxAll indeg rest (adjOf E idx)).1
              (relaxAll indeg rest (adjOf E idx)).2 (order ++ [idx]) := rfl
      rw [hk]
      exact kahnLoop_props E n hE fuel _ _ _
        (kahnStep_inv E n hE indeg idx rest order hinv)
        (by simp only [List.length_append, List.length_singleton]; omega)

/-! ## Cycles -/

lemma cycle_of_stuck (E : List (Nat × Nat)) (U : Finset Nat) (hne : U.Nonempty)
    (hstep : ∀ u ∈ U, ∃ d ∈ U, (d, u) ∈ E) : HasCycle E := by
  classical
  choose f hfU hfE using hstep
  set g : Nat → Nat := fun u => if h : u ∈ U then f u h else u with hgdef
  have hg : ∀ u (hu : u ∈ U), g u ∈ U ∧ (g u, u) ∈ E := by
    intro u hu
    have : g u = f u hu := by simp [hgdef, dif_pos hu]
    rw [this]
    exact ⟨hfU u hu, hfE u hu⟩
  obtain ⟨u0, hu0⟩ := hne
  have hiter : ∀ k, g^[k] u0 ∈ U := by
    intro k
    induction k with
    | zero => simpa using hu0
    | succ m ih =>
      rw [Function.iterate_succ_apply']
      exact (hg _ ih).1
  have hmap : ∀ k ∈ Finset.range (U.card + 1), g^[k] u0 ∈ U := fun k _ => hiter k
  have hcard : U.card < (Finset.range (U.card + 1)).card := by simp
  obtain ⟨a, _, b, _, hne2, heq⟩ :=
    Finset.exists_ne_map_eq_of_card_lt_of_maps_to hcard hmap
  have key : ∀ a b : Nat, a < b → g^[a] u0 = g^[b] u0 → HasCycle E := by
    intro a b hab heq2
    have hyU : g^[a] u0 ∈ U := hiter a
    have hyiter : ∀ k, g^[k] (g^[a] u0) ∈ U := by
      intro k
      induction k with
      | zero => simpa using hyU
      | succ m ih =>
        rw [Function.iterate_succ_apply']
        exact (hg _ ih).1
    have hpath : ∀ m, Relation.TransGen (edgeRel E) (g^[m + 1] (g^[a] u0)) (g^[a] u0) := by
      intro m
      induction m with
      | zero =>
        have h1 : g^[1] (g^[a] u0) = g (g^[a] u0) := Function.iterate_one g ▸ rfl
        rw [h1]
        exact Relation.TransGen.single (hg _ hyU).2
      | succ m ih =>
        have hstep2 : edgeRel E (g^[m + 1 + 1] (g^[a] u0)) (g^[m + 1] (g^[a] u0)) := by
          have h1 : g^[m + 1 + 1] (g^[a] u0) = g (g^[m + 1] (g^[a] u0)) :=
            Function.iterate_succ_apply' g (m + 1) _
          rw [h1]
          exact (hg _ (hyiter (m + 1))).2
        exact Relation.TransGen.head hstep2 ih
    have hyb : g^[b - a] (g^[a] u0) = g^[a] u0 := by
      rw [← Function.iterate_add_apply]
      have he : b - a + a = b := by omega
      rw [he, ← heq2]
    refine ⟨g^[a] u0, ?_⟩
    have hm : b - a - 1 + 1 = b - a := by omega
    have hp := hpath (b - a - 1)
    rw [hm, hyb] at hp
    exact hp
  rcases Nat.lt_trichotomy a b with h | h | h
  · exact key a b h heq
  · exact absurd h hne2
  · exact key b a h heq.symm

lemma transGen_before (E : List (Nat × Nat)) (res : List Nat) (hnd : res.Nodup)
    (htopo : ∀ p ∈ E, p.2 ∈ res → Before res p.1 p.2) :
    ∀ a b, Relation.TransGen (edgeRel E) a b → b ∈ res →
      a ∈ res ∧ res.indexOf a < res.indexOf b := by
  intro a b h
  induction h with
  | single hedge =>
    intro hb
    have hB := htopo _ hedge hb
    exact ⟨hB.mem_left, hB.indexOf_lt hnd⟩
  | tail hab hedge ih =>
    intro hb
    have hB := htopo _ hedge hb
    have h1 := ih hB.mem_left
    exact ⟨h1.1, lt_trans h1.2 (hB.indexOf_lt hnd)⟩

lemma hasCycle_not_in_topo (E : List (Nat × Nat)) (res : List Nat)
    (hnd : res.Nodup)
    (htopo : ∀ p ∈ E, p.2 ∈ res → Before res p.1 p.2)
    {i : Nat} (hc : Relation.TransGen (edgeRel E) i i) : i ∉ res := by
  intro hmem
  have := (transGen_before E res hnd htopo i i hc hmem).2
  omega

/-! ## Characterizing index_of and the edge list -/

lemma foldl_lookup_mem (l : List (Nat × TaskEntry)) (s : String) :
    ∀ (acc : Option Nat) (m : Nat),
      l.foldl (fun acc p => if p.2.name == s then some p.1 else acc) acc = some m →
      acc = some m ∨ ∃ p ∈ l, p.1 = m ∧ p.2.name = s := by
  induction l with
  | nil => intro acc m h; exact Or.inl h
  | cons x t ih =>
    intro acc m h
    rw [List.foldl_cons] at h
    rcases ih _ m h with h1 | ⟨p, hp, h2, h3⟩
    · by_cases hx : x.2.name = s
      · rw [if_pos (beq_iff_eq.mpr hx)] at h1
        have : x.1 = m := by injection h1
        exact Or.inr ⟨x, List.mem_cons_self _ _, this, hx⟩
      · rw [if_neg (by simpa using hx)] at h1
        exact Or.inl h1
    · exact Or.inr ⟨p, List.mem_cons_of_mem _ hp, h2, h3⟩

lemma mem_enumFrom_get? (l : List TaskEntry) :
    ∀ (k : Nat) (p : Nat × TaskEntry), p ∈ l.enumFrom k →
      k ≤ p.1 ∧ l.get? (p.1 - k) = some p.2 := by
  induction l with
  | nil => intro k p h; cases h
  | cons a t ih =>
    intro k p h
    rcases List.mem_cons.mp h with h1 | h1
    · subst h1
      simp
    · obtain ⟨h2, h3⟩ := ih (k + 1) p h1
      refine ⟨by omega, ?_⟩
      have he : p.1 - k = (p.1 - (k + 1)) + 1 := by omega
      rw [he, List.get?_cons_succ]
      exact h3

lemma get?_mem_enumFrom (l : List TaskEntry) :
    ∀ (k j : Nat) (e : TaskEntry), l.get? j = some e →
      (k + j, e) ∈ l.enumFrom k := by
  induction l with
  | nil => intro k j e h; cases h
  | cons a t ih =>
    intro k j e h
    cases j with
    | zero =>
      have : a = e := by injection h
      subst this
      simp [List.enumFrom]
    | succ m =>
      rw [List.get?_cons_succ] at h
      have := ih (k + 1) m e h
      have he : k + (m + 1) = (k + 1) + m := by omega
      rw [he]
      exact List.mem_cons_of_mem _ this

lemma index_of_some (entries : List TaskEntry) (s : String) (i : Nat)
    (h : index_of entries s = some i) :
    i < entries.length ∧ ∃ e, entries.get? i = some e ∧ e.name = s := by
  unfold index_of at h
  rcases foldl_lookup_mem entries.enum s none i h with h1 | ⟨p, hp, h2, h3⟩
  · cases h1
  · have hen : p ∈ entries.enumFrom 0 := hp
    obtain ⟨_, hget⟩ := mem_enumFrom_get? entries 0 p hen
    rw [Nat.sub_zero] at hget
    subst h2
    refine ⟨?_, p.2, hget, h3⟩
    have := List.get?_eq_some.mp hget
    exact this.1

lemma depsEdges_isOk (lookup : String → Option Nat) (ename : String) (i : Nat)
    (ds : List String) (h : ∀ d ∈ ds, (lookup d).isSome = true) :
    ∃ es, depsEdges lookup ename i ds = .ok es := by
  induction ds with
  | nil => exact ⟨[], rfl⟩
  | cons d dt ih =>
    obtain ⟨di, hdi⟩ := Option.isSome_iff_exists.mp (h d (List.mem_cons_self _ _))
    obtain ⟨es, hes⟩ := ih (fun d' hd' => h d' (List.mem_cons_of_mem _ hd'))
    exact ⟨(di, i) :: es, by rw [depsEdges, hdi, hes]⟩

lemma depsEdges_mem (lookup : String → Option Nat) (ename : String) (i : Nat)
    (ds : List String) (es : List (Nat × Nat))
    (h : depsEdges lookup ename i ds = .ok es) :
    ∀ p ∈ es, ∃ d ∈ ds, lookup d = some p.1 ∧ p.2 = i := by
  induction ds generalizing es with
  | nil =>
    rw [depsEdges] at h
    injection h with h
    subst h
    intro p hp
    cases hp
  | cons d dt ih =>
    rw [depsEdges] at h
    cases hd : lookup d with
    | none => rw [hd] at h; cases h
    | some di =>
      rw [hd] at h
      cases hrec : depsEdges lookup ename i dt with
      | error e => rw [hrec] at h; cases h
      | ok es2 =>
        rw [hrec] at h
        injection h with h
        subst h
        intro p hp
        rcases List.mem_cons.mp hp with h1 | h1
        · subst h1
          exact ⟨d, List.mem_cons_self _ _, hd, rfl⟩
        · obtain ⟨d', hd', h2, h3⟩ := ih es2 hrec p h1
          exact ⟨d', List.mem_cons_of_mem _ hd', h2, h3⟩

lemma depsEdges_mem_rev (lookup : String → Option Nat) (ename : String) (i : Nat)
    (ds : List String) (es : List (Nat × Nat))
    (h : depsEdges lookup ename i ds = .ok es) :
    ∀ d ∈ ds, ∀ di, lookup d = some di → (di, i) ∈ es := by
  induction ds generalizing es with
  | nil => intro d hd; cases hd
  | cons d0 dt ih =>
    rw [depsEdges] at h
    cases hd : lookup d0 with
    | none => rw [hd] at h; cases h
    | some d0i =>
      rw [hd] at h
      cases hrec : depsEdges lookup ename i dt with
      | error e => rw [hrec] at h; cases h
      | ok es2 =>
        rw [hrec] at h
        injection h with h
        subst h
        intro d hdm di hdi
        rcases List.mem_cons.mp hdm with h1 | h1
        · subst h1
          rw [hd] at hdi
          injection hdi with hdi
          subst hdi
          exact List.mem_cons_self _ _
        · exact List.mem_cons_of_mem _ (ih es2 hrec d h1 di hdi)

lemma edgesAux_isOk (lookup : String → Option Nat) (L : List (Nat × TaskEntry))
    (h : ∀ q ∈ L, ∀ d ∈ q.2.depends_on, (lookup d).isSome = true) :
    ∃ E, edgesAux lookup L = .ok E := by
  induction L with
  | nil => exact ⟨[], rfl⟩
  | cons q rest ih =>
    obtain ⟨i, e⟩ := q
    obtain ⟨es, hes⟩ :=
      depsEdges_isOk lookup e.name i e.depends_on
        (h (i, e) (List.mem_cons_self _ _))
    obtain ⟨E2, hE2⟩ := ih (fun q' hq' => h q' (List.mem_cons_of_mem _ hq'))
    exact ⟨es ++ E2, by rw [edgesAux, hes, hE2]⟩

lemma edgesAux_mem (lookup : String → Option Nat) (L : List (Nat × TaskEntry))
    (E : List (Nat × Nat)) (h : edgesAux lookup L = .ok E) :
    ∀ p ∈ E, ∃ q ∈ L, ∃ d ∈ q.2.depends_on, lookup d = some p.1 ∧ p.2 = q.1 := by
  induction L generalizing E with
  | nil =>
    rw [edgesAux] at h
    injection h with h
    subst h
    intro p hp
    cases hp
  | cons q rest ih =>
    obtain ⟨i, e⟩ := q
    rw [edgesAux] at h
    cases hdeps : depsEdges lookup e.name i e.depends_on with
    | error msg => rw [hdeps] at h; cases h
    | ok es =>
      rw [hdeps] at h
      cases hrec : edgesAux lookup rest with
      | error msg => rw [hrec] at h; cases h
      | ok E2 =>
        rw [hrec] at h
        injection h with h
        subst h
        intro p hp
        rcases List.mem_append.mp hp with h1 | h1
        · obtain ⟨d, hd, h2, h3⟩ := depsEdges_mem lookup e.name i _ es hdeps p h1
          exact ⟨(i, e), List.mem_cons_self _ _, d, hd, h2, h3⟩
        · obtain ⟨q', hq', d, hd, h2, h3⟩ := ih E2 hrec p h1
          exact ⟨q', List.mem_cons_of_mem _ hq', d, hd, h2, h3⟩

lemma edgesAux_mem_rev (lookup : String → Option Nat) (L : List (Nat × TaskEntry))
    (E : List (Nat × Nat)) (h : edgesAux lookup L = .ok E) :
    ∀ q ∈ L, ∀ d ∈ q.2.depends_on, ∀ di, lookup d = some di → (di, q.1) ∈ E := by
  induction L generalizing E with
  | nil => intro q hq; cases hq
  | cons q0 rest ih =>
    obtain ⟨i, e⟩ := q0
    rw [edgesAux] at h
    cases hdeps : depsEdges lookup e.name i e.depends_on with
    | error msg => rw [hdeps] at h; cases h
    | ok es =>
      rw [hdeps] at h
      cases hrec : edgesAux lookup rest with
      | error msg => rw [hrec] at h; cases h
      | ok E2 =>
        rw [hrec] at h
        injection h with h
        subst h
        intro q hq d hd di hdi
        rcases List.mem_cons.mp hq with h1 | h1
        · subst h1
          exact List.mem_append_left _
            (depsEdges_mem_rev lookup e.name i _ es hdeps d hd di hdi)
        · exact List.mem_append_right _ (ih E2 hrec q h1 d hd di hdi)

/-! ## The error paths of the edge collection -/

lemma depsEdges_error_first (lookup : String → Option Nat) (ename : String)
    (i : Nat) (ds : List String) (hmem : ∃ d ∈ ds, lookup d = none) :
    ∃ d, depsEdges lookup ename i ds = .error (unknownDepMsg ename d) ∧
      d ∈ ds ∧ lookup d = none := by
  induction ds with
  | nil => obtain ⟨d, hd, _⟩ := hmem; cases hd
  | cons d0 dt ih =>
    cases hd : lookup d0 with
    | none =>
      exact ⟨d0, by rw [depsEdges, hd], List.mem_cons_self _ _, hd⟩
    | some d0i =>
      have hmem' : ∃ d ∈ dt, lookup d = none := by
        obtain ⟨d, hdm, hdn⟩ := hmem
        rcases List.mem_cons.mp hdm with h1 | h1
        · subst h1; rw [hd] at hdn; cases hdn
        · exact ⟨d, h1, hdn⟩
      obtain ⟨d, herr, hdm, hdn⟩ := ih hmem'
      refine ⟨d, ?_, List.mem_cons_of_mem _ hdm, hdn⟩
      rw [depsEdges, hd, herr]

lemma edgesAux_error_first (lookup : String → Option Nat)
    (L : List (Nat × TaskEntry))
    (hmem : ∃ q ∈ L, ∃ d ∈ q.2.depends_on, lookup d = none) :
    ∃ t d, edgesAux lookup L = .error (unknownDepMsg t d) ∧
      ∃ q ∈ L, q.2.name = t ∧ d ∈ q.2.depends_on ∧ lookup d = none := by
  induction L with
  | nil => obtain ⟨q, hq, _⟩ := hmem; cases hq
  | cons q0 rest ih =>
    obtain ⟨i, e⟩ := q0
    by_cases hq0 : ∃ d ∈ e.depends_on, lookup d = none
    · obtain ⟨d, herr, hdm, hdn⟩ := depsEdges_error_first lookup e.name i _ hq0
      refine ⟨e.name, d, ?_, (i, e), List.mem_cons_self _ _, rfl, hdm, hdn⟩
      rw [edgesAux, herr]
    · push_neg at hq0
      have hok : ∀ d ∈ e.depends_on, (lookup d).isSome = true := by
        intro d hd
        rcases h0 : lookup d with _ | v
        · exact absurd h0 (hq0 d hd)
        · rfl
      obtain ⟨es, hes⟩ := depsEdges_isOk lookup e.name i e.depends_on hok
      have hmem' : ∃ q ∈ rest, ∃ d ∈ q.2.depends_on, lookup d = none := by
        obtain ⟨q, hqm, d, hdm, hdn⟩ := hmem
        rcases List.mem_cons.mp hqm with h1 | h1
        · subst h1
          exact absurd hdn (hq0 d hdm)
        · exact ⟨q, h1, d, hdm, hdn⟩
      obtain ⟨t, d, herr, q, hqm, h1, h2, h3⟩ := ih hmem'
      refine ⟨t, d, ?_, q, List.mem_cons_of_mem _ hqm, h1, h2, h3⟩
      rw [edgesAux, hes, herr]

lemma depsEdges_error_empty (lookup : String → Option Nat) (ename : String)
    (i : Nat) (ds : List String)
    (hsome : ∀ d ∈ ds, d ≠ "" → (lookup d).isSome = true)
    (hmem : "" ∈ ds) (hnone : lookup "" = none) :
    depsEdges lookup ename i ds = .error (unknownDepMsg ename "") := by
  induction ds with
  | nil => cases hmem
  | cons d0 dt ih =>
    by_cases h0 : d0 = ""
    · subst h0
      rw [depsEdges, hnone]
    · obtain ⟨di, hdi⟩ := Option.isSome_iff_exists.mp
        (hsome d0 (List.mem_cons_self _ _) h0)
      have hmem' : "" ∈ dt := by
        rcases List.mem_cons.mp hmem with h1 | h1
        · exact absurd h1.symm h0
        · exact h1
      rw [depsEdges, hdi,
        ih (fun d hd hne => hsome d (List.mem_cons_of_mem _ hd) hne) hmem']

lemma edgesAux_error_empty (lookup : String → Option Nat)
    (L : List (Nat × TaskEntry))
    (hsome : ∀ q ∈ L, ∀ d ∈ q.2.depends_on, d ≠ "" → (lookup d).isSome = true)
    (hnone : lookup "" = none)
    (hmem : ∃ q ∈ L, "" ∈ q.2.depends_on) :
    ∃ t, edgesAux lookup L = .error (unknownDepMsg t "") := by
  induction L with
  | nil => obtain ⟨q, hq, _⟩ := hmem; cases hq
  | cons q0 rest ih =>
    obtain ⟨i, e⟩ := q0
    by_cases hq0 : "" ∈ e.depends_on
    · refine ⟨e.name, ?_⟩
      rw [edgesAux,
        depsEdges_error_empty lookup e.name i _
          (fun d hd hne => hsome (i, e) (List.mem_cons_self _ _) d hd hne)
          hq0 hnone]
    · have hok : ∀ d ∈ e.depends_on, (lookup d).isSome = true := by
        intro d hd
        by_cases hde : d = ""
        · subst hde; exact absurd hd hq0
        · exact hsome (i, e) (List.mem_cons_self _ _) d hd hde
      obtain ⟨es, hes⟩ := depsEdges_isOk lookup e.name i e.depends_on hok
      have hmem' : ∃ q ∈ rest, "" ∈ q.2.depends_on := by
        obtain ⟨q, hqm, hqd⟩ := hmem
        rcases List.mem_cons.mp hqm with h1 | h1
        · subst h1; exact absurd hqd hq0
        · exact ⟨q, h1, hqd⟩
      obtain ⟨t, herr⟩ := ih
        (fun q hq d hd hne => hsome q (List.mem_cons_of_mem _ hq) d hd hne) hmem'
      exact ⟨t, by rw [edgesAux, hes, herr]⟩

/-! ## Validity and completeness of the resolved edge list -/

lemma edgesOf_valid (entries : List TaskEntry) (E : List (Nat × Nat))
    (h : edgesOf entries = .ok E) :
    ∀ p ∈ E, p.1 < entries.length ∧ p.2 < entries.length := by
  intro p hp
  obtain ⟨q, hq, d, _, hdi, hp2⟩ := edgesAux_mem _ _ E h p hp
  constructor
  · exact (index_of_some entries d p.1 hdi).1
  · have hen : q ∈ entries.enumFrom 0 := hq
    obtain ⟨_, hget⟩ := mem_enumFrom_get? entries 0 q hen
    rw [Nat.sub_zero] at hget
    rw [hp2]
    exact (List.get?_eq_some.mp hget).1

lemma edgesOf_mem_rev (entries : List TaskEntry) (E : List (Nat × Nat))
    (h : edgesOf entries = .ok E) (j : Nat) (e : TaskEntry)
    (hget : entries.get? j = some e) (d : String) (hd : d ∈ e.depends_on)
    (di : Nat) (hdi : index_of entries d = some di) : (di, j) ∈ E := by
  have hq : (j, e) ∈ entries.enum := by
    have := get?_mem_enumFrom entries 0 j e hget
    simpa using this
  exact edgesAux_mem_rev _ _ E h (j, e) hq d hd di hdi

lemma edgesOf_target_has_dep (entries : List TaskEntry) (E : List (Nat × Nat))
    (h : edgesOf entries = .ok E) (p : Nat × Nat) (hp : p ∈ E) :
    ∃ e, entries.get? p.2 = some e ∧ e.depends_on ≠ [] := by
  obtain ⟨q, hq, d, hd, _, hp2⟩ := edgesAux_mem _ _ E h p hp
  have hen : q ∈ entries.enumFrom 0 := hq
  obtain ⟨_, hget⟩ := mem_enumFrom_get? entries 0 q hen
  rw [Nat.sub_zero] at hget
  refine ⟨q.2, by rw [hp2]; exact hget, ?_⟩
  intro hnil
  rw [hnil] at hd
  cases hd

/-! ## Assembling topo_sort -/

lemma topo_sort_eq (entries : List TaskEntry) (E : List (Nat × Nat))
    (hEok : edgesOf entries = .ok E) :
    topo_sort entries =
      if (kahnOrder entries E).length = entries.length then
        .ok ((kahnOrder entries E).filterMap (fun i => entries.get? i))
      else .error cycleMsg := by
  unfold topo_sort kahnOrder
  rw [hEok]

lemma topo_sort_error_prop (entries : List TaskEntry) (msg : String)
    (h : edgesOf entries = .error msg) : topo_sort entries = .error msg := by
  unfold topo_sort
  rw [h]

lemma kahn_props (entries : List TaskEntry) (E : List (Nat × Nat))
    (hEok : edgesOf entries = .ok E) :
    (kahnOrder entries E).Nodup ∧
    (∀ i ∈ kahnOrder entries E, i < entries.length) ∧
    (∀ p ∈ E, p.2 ∈ kahnOrder entries E →
      Before (kahnOrder entries E) p.1 p.2) ∧
    ((kahnOrder entries E).filter (fun i => indegOf E i == 0)).Sorted (· < ·) ∧
    (∀ i, i < entries.length → i ∉ kahnOrder entries E →
      remIndeg E (kahnOrder entries E) i ≠ 0) := by
  unfold kahnOrder
  exact kahnLoop_props E entries.length (edgesOf_valid entries E hEok)
    (entries.length + 1) (indegOf E) _ [] (kahnInit E entries.length) (by simp)

lemma kahn_complete (entries : List TaskEntry) (E : List (Nat × Nat))
    (hEok : edgesOf entries = .ok E) (hacyc : ¬ HasCycle E) :
    ∀ i, i < entries.length → i ∈ kahnOrder entries E := by
  obtain ⟨hnd, hbound, htopo, hsorted, hstuck⟩ := kahn_props entries E hEok
  by_contra hcon
  push_neg at hcon
  obtain ⟨i0, hi0n, hi0⟩ := hcon
  apply hacyc
  apply cycle_of_stuck E
    ((Finset.range entries.length).filter (fun i => i ∉ kahnOrder entries E))
  · exact ⟨i0, by simp [hi0n, hi0]⟩
  · intro u hu
    rw [Finset.mem_filter, Finset.mem_range] at hu
    have hrem : remIndeg E (kahnOrder entries E) u ≠ 0 :=
      hstuck u hu.1 hu.2
    have hpos : 0 < remIndeg E (kahnOrder entries E) u := Nat.pos_of_ne_zero hrem
    unfold remIndeg at hpos
    obtain ⟨p, hp, hpp⟩ := List.countP_pos.mp hpos
    simp only [Bool.and_eq_true, beq_iff_eq, Bool.not_eq_true',
      decide_eq_false_iff_not] at hpp
    refine ⟨p.1, ?_, ?_⟩
    · rw [Finset.mem_filter, Finset.mem_range]
      exact ⟨(edgesOf_valid entries E hEok p hp).1, hpp.2⟩
    · have hpe : p = (p.1, u) := by
        obtain ⟨p1, p2⟩ := p
        simp only at hpp ⊢
        rw [hpp.1]
      rwa [hpe] at hp

lemma kahn_all_of_length (entries : List TaskEntry) (E : List (Nat × Nat))
    (hEok : edgesOf entries = .ok E)
    (hlen : (kahnOrder entries E).length = entries.length) :
    ∀ i, i < entries.length → i ∈ kahnOrder entries E := by
  obtain ⟨hnd, hbound, _, _, _⟩ := kahn_props entries E hEok
  have hsub : (kahnOrder entries E).toFinset ⊆ Finset.range entries.length := by
    intro a ha
    rw [List.mem_toFinset] at ha
    exact Finset.mem_range.mpr (hbound a ha)
  have hcard : (kahnOrder entries E).toFinset.card = entries.length := by
    rw [List.toFinset_card_of_nodup hnd, hlen]
  have heq : (kahnOrder entries E).toFinset = Finset.range entries.length :=
    Finset.eq_of_subset_of_card_le hsub (by simp [hcard])
  intro i hi
  have : i ∈ (kahnOrder entries E).toFinset := by
    rw [heq]
    exact Finset.mem_range.mpr hi
  rwa [List.mem_toFinset] at this

/-! ## Claims about topo_sort error handling -/

/-- C6: `topo_sort` fails fatally (the supervisor terminates before any task
is spawned) with a message naming both the dependent task and the missing
dependency when some declared dependency resolves to no task, and fails
fatally with the cycle message when the resolved dependency graph has a
cycle. -/
theorem topo_sort_fatal_errors :
    (∀ entries : List TaskEntry,
      (∃ e ∈ entries, ∃ d ∈ e.depends_on, index_of entries d = none) →
      ∃ t d, topo_sort entries = .error (unknownDepMsg t d) ∧
        ∃ e ∈ entries, e.name = t ∧ d ∈ e.depends_on ∧
          index_of entries d = none) ∧
    (∀ (entries : List TaskEntry) (E : List (Nat × Nat)),
      edgesOf entries = .ok E → HasCycle E →
      topo_sort entries = .error cycleMsg) := by
  constructor
  · intro entries hmem
    have hmem' : ∃ q ∈ entries.enum, ∃ d ∈ q.2.depends_on,
        index_of entries d = none := by
      obtain ⟨e, he, d, hd, hdn⟩ := hmem
      obtain ⟨j, hj⟩ := List.get?_of_mem he
      have := get?_mem_enumFrom entries 0 j e hj
      simp only [Nat.zero_add] at this
      exact ⟨(j, e), this, d, hd, hdn⟩
    obtain ⟨t, d, herr, q, hq, h1, h2, h3⟩ :=
      edgesAux_error_first (index_of entries) entries.enum hmem'
    have herr2 : edgesOf entries = .error (unknownDepMsg t d) := herr
    refine ⟨t, d, topo_sort_error_prop entries _ herr2, q.2, ?_, h1, h2, h3⟩
    obtain ⟨_, hget⟩ := mem_enumFrom_get? entries 0 q hq
    exact List.get?_mem hget
  · intro entries E hEok hcyc
    obtain ⟨hnd, hbound, htopo, _, _⟩ := kahn_props entries E hEok
    have hne : ¬ (kahnOrder entries E).length = entries.length := by
      intro hlen
      obtain ⟨i, hTG⟩ := hcyc
      have hin : i < entries.length := by
        cases hTG with
        | single h => exact (edgesOf_valid entries E hEok _ h).2
        | tail h1 h2 => exact (edgesOf_valid entries E hEok _ h2).2
      have hall := kahn_all_of_length entries E hEok hlen i hin
      exact hasCycle_not_in_topo E _ hnd htopo hTG hall
    rw [topo_sort_eq entries E hEok, if_neg hne]

/-- Witness for C6 at concrete manifests: a dangling dependency name is
reported with both names, and a two-task cycle is rejected. -/
theorem topo_sort_fatal_errors_witness :
    (∃ t d, topo_sort [⟨"a", "x", none, ["zzz"], none⟩]
        = .error (unknownDepMsg t d) ∧
      ∃ e ∈ [(⟨"a", "x", none, ["zzz"], none⟩ : TaskEntry)], e.name = t ∧
        d ∈ e.depends_on ∧
        index_of [⟨"a", "x", none, ["zzz"], none⟩] d = none) ∧
    topo_sort [⟨"a", "x", none, ["b"], none⟩, ⟨"b", "y", none, ["a"], none⟩]
      = .error cycleMsg :=
  by
  constructor
  · exact topo_sort_fatal_errors.1 [⟨"a", "x", none, ["zzz"], none⟩] (by decide)
  · apply topo_sort_fatal_errors.2
      [⟨"a", "x", none, ["b"], none⟩, ⟨"b", "y", none, ["a"], none⟩]
      [(1, 0), (0, 1)] rfl
    refine ⟨0, ?_⟩
    have h1 : edgeRel [(1, 0), (0, 1)] 0 1 := by unfold edgeRel; decide
    have h2 : edgeRel [(1, 0), (0, 1)] 1 0 := by unfold edgeRel; decide
    exact Relation.TransGen.head h1 (Relation.TransGen.single h2)

/-- C9: a trailing comma in `depends_on` (such as `a,`) yields an
empty-string dependency name from the manifest parser, and `topo_sort` then
fails fatally with an unknown-dependency error naming the empty string, even
though every actually named dependency resolves. -/
theorem trailing_comma_empty_dep :
    parse_depends_on "a," = ["a", ""] ∧
    ∀ entries : List TaskEntry, index_of entries "" = none →
      (∃ e ∈ entries, "" ∈ e.depends_on) →
      (∀ e ∈ entries, ∀ d ∈ e.depends_on, d ≠ "" →
        (index_of entries d).isSome = true) →
      ∃ t, topo_sort entries = .error (unknownDepMsg t "") := by
  constructor
  · rfl
  · intro entries hnone hmem hsome
    have hmem' : ∃ q ∈ entries.enum, "" ∈ q.2.depends_on := by
      obtain ⟨e, he, hd⟩ := hmem
      obtain ⟨j, hj⟩ := List.get?_of_mem he
      have := get?_mem_enumFrom entries 0 j e hj
      simp only [Nat.zero_add] at this
      exact ⟨(j, e), this, hd⟩
    have hsome' : ∀ q ∈ entries.enum, ∀ d ∈ q.2.depends_on, d ≠ "" →
        (index_of entries d).isSome = true := by
      intro q hq d hd hne
      obtain ⟨_, hget⟩ := mem_enumFrom_get? entries 0 q hq
      exact hsome q.2 (List.get?_mem hget) d hd hne
    obtain ⟨t, herr⟩ :=
      edgesAux_error_empty (index_of entries) entries.enum hsome' hnone hmem'
    have herr2 : edgesOf entries = .error (unknownDepMsg t "") := herr
    exact ⟨t, topo_sort_error_prop entries _ herr2⟩

/-- Witness for C9: the dependency list parsed from `a,` makes `topo_sort`
fail even though the named dependency `a` exists. -/
theorem trailing_comma_empty_dep_witness :
    ∃ t, topo_sort [⟨"a", "x", none, [], none⟩,
        ⟨"b", "y", none, parse_depends_on "a,", none⟩]
      = .error (unknownDepMsg t "") :=
  trailing_comma_empty_dep.2
    [⟨"a", "x", none, [], none⟩, ⟨"b", "y", none, parse_depends_on "a,", none⟩]
    (by decide) (by decide) (by decide)

/-! ## topo_sort as a stable dependency-respecting permutation -/

lemma filterMap_get?_eq_map (entries : List TaskEntry) (l : List Nat)
    (hb : ∀ i ∈ l, i < entries.length) :
    l.filterMap (fun i => entries.get? i)
      = l.map (fun i => entries.getD i default) := by
  induction l with
  | nil => simp
  | cons a t ih =>
    have ha := hb a (List.mem_cons_self _ _)
    rw [List.filterMap_cons, List.map_cons, List.get?_eq_get ha,
      ih (fun i hi => hb i (List.mem_cons_of_mem _ hi))]
    rw [List.getD_eq_get?, List.get?_eq_get ha]
    rfl

lemma map_getD_range (l : List TaskEntry) :
    (List.range l.length).map (fun i => l.getD i default) = l := by
  apply List.ext_get
  · simp
  · intro n h1 h2
    have hn : n < l.length := h2
    rw [List.get_map, List.get_range, List.getD_eq_get?, List.get?_eq_get hn]
    rfl

lemma getD_eq_get (entries : List TaskEntry) (i : Nat) (h : i < entries.length) :
    entries.getD i default = entries.get ⟨i, h⟩ := by
  rw [List.getD_eq_get?, List.get?_eq_get h]
  rfl

lemma name_inj_on (entries : List TaskEntry)
    (hnodup : (entries.map TaskEntry.name).Nodup)
    (x y : Nat) (hx : x < entries.length) (hy : y < entries.length)
    (he : (entries.get ⟨x, hx⟩).name = (entries.get ⟨y, hy⟩).name) : x = y := by
  have hx' : x < (entries.map TaskEntry.name).length := by simpa using hx
  have hy' : y < (entries.map TaskEntry.name).length := by simpa using hy
  have h1 : (entries.map TaskEntry.name).get ⟨x, hx'⟩
      = (entries.map TaskEntry.name).get ⟨y, hy'⟩ := by
    rw [List.get_map, List.get_map]
    exact he
  have := (hnodup.get_inj_iff).mp h1
  simpa using congrArg Fin.val this

/-- C5 (amended): for an acyclic, fully-resolvable manifest with unique task
names, `topo_sort` returns a permutation of the input in which every declared
dependency appears before the task declaring it; the FIFO queue preserves the
original file order among the tasks that declare no dependencies (the tasks
at in-degree zero from the start), which is the stability the code actually
provides. -/
theorem topo_sort_stable_amended (entries : List TaskEntry)
    (hnodup : (entries.map TaskEntry.name).Nodup)
    (hres : Resolvable entries)
    (hacyc : ∀ E, edgesOf entries = Except.ok E → ¬ HasCycle E) :
    ∃ out, topo_sort entries = .ok out ∧
      out.Perm entries ∧
      (∀ e ∈ out, ∀ dep ∈ e.depends_on,
        (out.map TaskEntry.name).indexOf dep
          < (out.map TaskEntry.name).indexOf e.name) ∧
      (∀ i j (hi : i < entries.length) (hj : j < entries.length), i < j →
        (entries.get ⟨i, hi⟩).depends_on = [] →
        (entries.get ⟨j, hj⟩).depends_on = [] →
        (out.map TaskEntry.name).indexOf (entries.get ⟨i, hi⟩).name
          < (out.map TaskEntry.name).indexOf (entries.get ⟨j, hj⟩).name) := by
  have hres' : ∀ q ∈ entries.enum, ∀ d ∈ q.2.depends_on,
      (index_of entries d).isSome = true := by
    intro q hq d hd
    obtain ⟨_, hget⟩ := mem_enumFrom_get? entries 0 q hq
    exact hres q.2 (List.get?_mem hget) d hd
  obtain ⟨E, hEok0⟩ := edgesAux_isOk (index_of entries) entries.enum hres'
  have hEok : edgesOf entries = .ok E := hEok0
  obtain ⟨hnd, hbound, htopo, hsorted, hstuck⟩ := kahn_props entries E hEok
  have hall := kahn_complete entries E hEok (hacyc E hEok)
  have hperm : (kahnOrder entries E).Perm (List.range entries.length) := by
    rw [List.perm_ext_iff_of_nodup hnd (List.nodup_range _)]
    intro a
    constructor
    · intro ha
      exact List.mem_range.mpr (hbound a ha)
    · intro ha
      exact hall a (List.mem_range.mp ha)
  have hlen : (kahnOrder entries E).length = entries.length := by
    have := hperm.length_eq
    simpa using this
  have hts := topo_sort_eq entries E hEok
  rw [if_pos hlen] at hts
  have hout_eq : (kahnOrder entries E).filterMap (fun i => entries.get? i)
      = (kahnOrder entries E).map (fun i => entries.getD i default) :=
    filterMap_get?_eq_map entries _ hbound
  have hinj : ∀ x ∈ kahnOrder entries E, ∀ y ∈ kahnOrder entries E,
      (entries.getD x default).name = (entries.getD y default).name → x = y := by
    intro x hx y hy he
    have hxn := hbound x hx
    have hyn := hbound y hy
    rw [getD_eq_get entries x hxn, getD_eq_get entries y hyn] at he
    exact name_inj_on entries hnodup x y hxn hyn he
  have hmapname :
      ((kahnOrder entries E).filterMap (fun i => entries.get? i)).map TaskEntry.name
        = (kahnOrder entries E).map (fun i => (entries.getD i default).name) := by
    rw [hout_eq, List.map_map]
    rfl
  refine ⟨(kahnOrder entries E).filterMap (fun i => entries.get? i), hts, ?_, ?_, ?_⟩
  · rw [hout_eq]
    have h1 := hperm.map (fun i => entries.getD i default)
    rwa [map_getD_range entries] at h1
  · intro e he dep hdep
    rw [hout_eq] at he
    obtain ⟨j, hj, hje⟩ := List.mem_map.mp he
    have hjn : j < entries.length := hbound j hj
    have hje' : e = entries.get ⟨j, hjn⟩ := by
      rw [← hje, getD_eq_get entries j hjn]
    have hdep_in : dep ∈ (entries.get ⟨j, hjn⟩).depends_on := hje' ▸ hdep
    have hsome : (index_of entries dep).isSome = true :=
      hres (entries.get ⟨j, hjn⟩) (List.get_mem _ _ _) dep hdep_in
    obtain ⟨di, hdi⟩ := Option.isSome_iff_exists.mp hsome
    obtain ⟨hdin, e2, hgete2, hname2⟩ := index_of_some entries dep di hdi
    have hedge : (di, j) ∈ E :=
      edgesOf_mem_rev entries E hEok j (entries.get ⟨j, hjn⟩)
        (List.get?_eq_get hjn) dep hdep_in di hdi
    have hB : Before (kahnOrder entries E) di j := htopo (di, j) hedge hj
    have hlt := hB.indexOf_map_lt hnd
      (fun i => (entries.getD i default).name) hinj
    have hnmdi : (entries.getD di default).name = dep := by
      rw [List.getD_eq_get?, hgete2]
      exact hname2
    have hnmj : (entries.getD j default).name = e.name := by
      rw [hje]
    rw [hmapname]
    rw [← hnmdi, ← hnmj]
    exact hlt
  · intro i j hi hj hij hdi hdj
    have hiR : i ∈ kahnOrder entries E := hall i hi
    have hjR : j ∈ kahnOrder entries E := hall j hj
    have hseed : ∀ k (hk : k < entries.length),
        (entries.get ⟨k, hk⟩).depends_on = [] → (indegOf E k == 0) = true := by
      intro k hk hdk
      have h0 : indegOf E k = 0 := by
        unfold indegOf
        rw [List.countP_eq_zero]
        intro p hp hpp
        have hp2 : p.2 = k := by simpa using hpp
        obtain ⟨e2, hget2, hne⟩ := edgesOf_target_has_dep entries E hEok p hp
        rw [hp2, List.get?_eq_get hk] at hget2
        injection hget2 with hget2
        exact hne (by rw [← hget2, hdk])
      simpa using h0
    have hB := sorted_filter_before hsorted hiR hjR
      (hseed i hi hdi) (hseed j hj hdj) hij
    have hlt := hB.indexOf_map_lt hnd
      (fun k => (entries.getD k default).name) hinj
    rw [hmapname, ← getD_eq_get entries i hi, ← getD_eq_get entries j hj]
    exact hlt

lemma noCycle_of_rank (E : List (Nat × Nat)) (f : Nat → Nat)
    (h : ∀ p ∈ E, f p.1 < f p.2) : ¬ HasCycle E := by
  rintro ⟨i, hTG⟩
  have hmono : ∀ a b, Relation.TransGen (edgeRel E) a b → f a < f b := by
    intro a b htg
    induction htg with
    | single he => exact h _ he
    | tail h1 he ih => exact lt_trans ih (h _ he)
  have := hmono i i hTG
  omega

/-- Witness for C5 (amended) at the manifest `[a; b depends_on a]`. -/
theorem topo_sort_stable_amended_witness :
    ∃ out, topo_sort [⟨"a", "x", none, [], none⟩, ⟨"b", "y", none, ["a"], none⟩]
        = .ok out ∧
      out.Perm [⟨"a", "x", none, [], none⟩, ⟨"b", "y", none, ["a"], none⟩] ∧
      (∀ e ∈ out, ∀ dep ∈ e.depends_on,
        (out.map TaskEntry.name).indexOf dep
          < (out.map TaskEntry.name).indexOf e.name) ∧
      (∀ i j (hi : i < (2 : Nat)) (hj : j < (2 : Nat)), i < j →
        (([⟨"a", "x", none, [], none⟩,
           ⟨"b", "y", none, ["a"], none⟩] : List TaskEntry).get ⟨i, hi⟩).depends_on = [] →
        (([⟨"a", "x", none, [], none⟩,
           ⟨"b", "y", none, ["a"], none⟩] : List TaskEntry).get ⟨j, hj⟩).depends_on = [] →
        (out.map TaskEntry.name).indexOf
            (([⟨"a", "x", none, [], none⟩,
               ⟨"b", "y", none, ["a"], none⟩] : List TaskEntry).get ⟨i, hi⟩).name
          < (out.map TaskEntry.name).indexOf
              (([⟨"a", "x", none, [], none⟩,
                 ⟨"b", "y", none, ["a"], none⟩] : List TaskEntry).get ⟨j, hj⟩).name) :=
  topo_sort_stable_amended
    [⟨"a", "x", none, [], none⟩, ⟨"b", "y", none, ["a"], none⟩]
    (by decide) (by unfold Resolvable; decide)
    (fun E hE => by
      have h0 : (Except.ok [((0 : Nat), (1 : Nat))] :
          Except String (List (Nat × Nat))) = Except.ok E :=
        (show edgesOf [⟨"a", "x", none, [], none⟩, ⟨"b", "y", none, ["a"], none⟩]
            = Except.ok [(0, 1)] from rfl).symm.trans hE
      injection h0 with h0
      subst h0
      exact noCycle_of_rank [(0, 1)] (fun k => k) (by decide))

/-- C5 counterexample: with the manifest `[a; b depends_on a; c]`, after `a`
is output both `b` (file index 1) and `c` (file index 2) are simultaneously
at in-degree zero, and the spec tie-break (original file order, the
`specStableOrder` model) would output `a, b, c`; the FIFO queue of
`topo_sort` outputs `a, c, b` instead, so original file order among
simultaneously ready tasks is not preserved. -/
theorem topo_sort_tiebreak_counterexample :
    topo_sort [⟨"a", "x", none, [], none⟩, ⟨"b", "y", none, ["a"], none⟩,
        ⟨"c", "z", none, [], none⟩]
      = .ok [⟨"a", "x", none, [], none⟩, ⟨"c", "z", none, [], none⟩,
        ⟨"b", "y", none, ["a"], none⟩] ∧
    edgesOf [⟨"a", "x", none, [], none⟩, ⟨"b", "y", none, ["a"], none⟩,
        ⟨"c", "z", none, [], none⟩] = .ok [(0, 1)] ∧
    remIndeg [(0, 1)] [0] 1 = 0 ∧
    remIndeg [(0, 1)] [0] 2 = 0 ∧
    specStableOrder [⟨"a", "x", none, [], none⟩, ⟨"b", "y", none, ["a"], none⟩,
        ⟨"c", "z", none, [], none⟩]
      = .ok [⟨"a", "x", none, [], none⟩, ⟨"b", "y", none, ["a"], none⟩,
        ⟨"c", "z", none, [], none⟩] ∧
    ([⟨"a", "x", none, [], none⟩, ⟨"c", "z", none, [], none⟩,
        ⟨"b", "y", none, ["a"], none⟩] : List TaskEntry)
      ≠ [⟨"a", "x", none, [], none⟩, ⟨"b", "y", none, ["a"], none⟩,
        ⟨"c", "z", none, [], none⟩] :=
  ⟨rfl, rfl, by decide, by decide, rfl, by decide⟩

end Tequio
